import Mathlib

/-!
Verification of the pronunciation-evaluation core of `service-audio-feedback`
(`src/routers/utils/evaluator.py`), shallowly embedded in Lean.

Python machine integers are modelled as `Nat`; Python float arithmetic in
`_сalculate_accuracy` is modelled over `ℚ` (exact real-number semantics); the
builtin `round(x, 2)` is modelled with Mathlib's `round` (nearest integer) on
`100 * x`.  Fallible Python operations (list indexing, division) are modelled
with `Except`: `ZeroDivisionError` and `IndexError` become explicit error
values.
-/

namespace AudioFeedback

/-- `CompareType` from `evaluator.py`: the four alignment operation kinds. -/
inductive CompareType where
  | Replacement
  | Insertion
  | Deletion
  | Match
deriving DecidableEq, Repr

/-- `Phoneme` from `evaluator.py`: a token with its zero-based position. -/
structure Phoneme where
  position : Nat
  value : String
deriving DecidableEq, Repr

/-- `PhoneticMistake` from `evaluator.py`. -/
structure PhoneticMistake where
  reference : Option Phoneme
  actual : Option Phoneme
  type : CompareType
deriving DecidableEq, Repr

/-- `Feedback` from `evaluator.py`: accuracy plus the ordered mistake list. -/
structure Feedback where
  accuracy : ℚ
  mistakes : List PhoneticMistake
deriving DecidableEq, Repr

/-- Runtime errors the Python core can raise: `ZeroDivisionError` (division by
`len(self.reference)` when it is zero) and `IndexError` (out-of-range list
indexing in `_construct_error`). -/
inductive EvalError where
  | zeroDivision
  | indexOutOfRange
deriving DecidableEq, Repr

/-- Helper for `tokenize`: walks the character list accumulating the current
token (in reverse); whitespace ends the current token, empty pieces are
dropped.  This is the semantics of Python's `str.split()` with no argument. -/
def tokenizeAux : List Char → List Char → List String
  | [], cur => if cur.isEmpty then [] else [String.mk cur.reverse]
  | c :: cs, cur =>
    if c.isWhitespace then
      if cur.isEmpty then tokenizeAux cs []
      else String.mk cur.reverse :: tokenizeAux cs []
    else tokenizeAux cs (c :: cur)

/-- `reference.split()` / `actual.split()` in `PronunciationEvaluator.__init__`:
split on whitespace runs, discarding empty pieces. -/
def tokenize (s : String) : List String := tokenizeAux s.data []

/-- One row of `_fill_dp_table`: row `i + 1` of the DP table computed from row
`i` (`prev`), left to right.  `fillRow ref act i prev j` is cell
`dpt[i+1][j]`: column 0 was set to `i + 1` by `_initialize_dp_table`; column
`j + 1` is `min(match, delete, insert)` exactly as in the Python loop body
(`match = dpt[i-1][j-1] + cost`, `delete = dpt[i-1][j] + 1`,
`insert = dpt[i][j-1] + 1`). -/
def fillRow (ref act : List String) (i : Nat) (prev : Nat → Nat) : Nat → Nat
  | 0 => i + 1
  | j + 1 =>
    min (prev j + (if ref.getD i "" = act.getD j "" then 0 else 1))
      (min (prev (j + 1) + 1) (fillRow ref act i prev j + 1))

/-- The DP table built by `_initialize_dp_table` and `_fill_dp_table`, as a
function of cell coordinates.  The Python code fills the table row by row,
each cell written once from already-final cells, so the table is the unique
fixpoint of the recurrence: row 0 is `dpt[0][j] = j` (initialization), and row
`i + 1` is computed from row `i` by `fillRow`. -/
def dpt (ref act : List String) : Nat → Nat → Nat
  | 0 => fun j => j
  | i + 1 => fillRow ref act i (dpt ref act i)

/-- `_is_match`: `False` when `i <= 0 or j <= 0`, otherwise
`reference[i-1] == actual[j-1] and dp[i][j] == dp[i-1][j-1]`. -/
abbrev isMatchStep (ref act : List String) (i j : Nat) : Prop :=
  i ≠ 0 ∧ j ≠ 0 ∧ ref.getD (i - 1) "" = act.getD (j - 1) "" ∧
    dpt ref act i j = dpt ref act (i - 1) (j - 1)

/-- `_is_replacement`: `False` when `i <= 0 or j <= 0`, otherwise
`reference[i-1] != actual[j-1] and dp[i][j] == dp[i-1][j-1] + 1`. -/
abbrev isReplacementStep (ref act : List String) (i j : Nat) : Prop :=
  i ≠ 0 ∧ j ≠ 0 ∧ ref.getD (i - 1) "" ≠ act.getD (j - 1) "" ∧
    dpt ref act i j = dpt ref act (i - 1) (j - 1) + 1

/-- `_is_deletion`: `i > 0 and dp[i][j] == dp[i-1][j] + 1`. -/
abbrev isDeletionStep (ref act : List String) (i j : Nat) : Prop :=
  i ≠ 0 ∧ dpt ref act i j = dpt ref act (i - 1) j + 1

/-- The `while i > 0 or j > 0` loop of `_traceback_alignment`, producing the
operation list in traceback (end-to-start) order: the op emitted at `(i, j)`
is at the head, as with Python's `alignment.append`.  Python's single branch
`if (is_match := ...) or self._is_replacement(...)` appending `MATCH` when
`is_match` else `REPLACEMENT` is written as two branches.  The loop is driven
by fuel; `i + j` strictly decreases at every iteration (the insertion branch
is reachable only with `j > 0`, since at `j = 0, i > 0` the deletion test
`dp[i][0] == dp[i-1][0] + 1` is identically true), so fuel `i + j` suffices
and the `[]` of exhausted fuel is never returned. -/
def tracebackAux (ref act : List String) : Nat → Nat → Nat → List CompareType
  | 0, _, _ => []
  | _ + 1, 0, 0 => []
  | fuel + 1, i, j =>
    if isMatchStep ref act i j then
      CompareType.Match :: tracebackAux ref act fuel (i - 1) (j - 1)
    else if isReplacementStep ref act i j then
      CompareType.Replacement :: tracebackAux ref act fuel (i - 1) (j - 1)
    else if isDeletionStep ref act i j then
      CompareType.Deletion :: tracebackAux ref act fuel (i - 1) j
    else
      CompareType.Insertion :: tracebackAux ref act fuel i (j - 1)

/-- `SequenceAligner.get_align`: build the DP table, trace back from
`(len(reference), len(actual))`, and return `alignment[::-1]` (start-to-end
order). -/
def getAlign (ref act : List String) : List CompareType :=
  (tracebackAux ref act (ref.length + act.length) ref.length act.length).reverse

/-- Python list indexing `l[i]` for the nonnegative indices used by
`_construct_error`: raises `IndexError` when out of range. -/
def listGetE (l : List String) (i : Nat) : Except EvalError String :=
  match l.get? i with
  | some v => Except.ok v
  | none => Except.error EvalError.indexOutOfRange

/-- `PronunciationEvaluator._construct_error`: builds a `PhoneticMistake`,
reading `self.reference[ref_pos]` unless the operation is `Insertion` and
`self.actual[act_pos]` unless it is `Deletion`. -/
def constructError (ref act : List String) (refPos actPos : Nat)
    (cmpType : CompareType) : Except EvalError PhoneticMistake := do
  let refPh ←
    if cmpType ≠ CompareType.Insertion then do
      let v ← listGetE ref refPos
      pure (some (Phoneme.mk refPos v))
    else pure none
  let actPh ←
    if cmpType ≠ CompareType.Deletion then do
      let v ← listGetE act actPos
      pure (some (Phoneme.mk actPos v))
    else pure none
  pure (PhoneticMistake.mk refPh actPh cmpType)

/-- The mutable state of `PronunciationEvaluator` during `_check_mistakes`:
the instance fields `self.mistakes` and `self.matches` (here `matchCount`,
since `matches` is reserved syntax in Lean) plus the loop locals `ref_pos`
and `act_pos`. -/
structure MistState where
  mistakes : List PhoneticMistake
  matchCount : Nat
  refPos : Nat
  actPos : Nat
deriving DecidableEq, Repr

/-- One iteration of the `for compare_type in sequences_aligment` loop of
`_check_mistakes`: non-`Match` operations append a constructed mistake,
`Match` increments the match count; then the cursors advance
(`Match`/`Replacement` both, `Deletion` only `ref_pos`, `Insertion` only
`act_pos`). -/
def checkStep (ref act : List String) (st : MistState) (cmpType : CompareType) :
    Except EvalError MistState := do
  let st1 ←
    if cmpType ≠ CompareType.Match then do
      let e ← constructError ref act st.refPos st.actPos cmpType
      pure { st with mistakes := st.mistakes ++ [e] }
    else pure { st with matchCount := st.matchCount + 1 }
  match cmpType with
  | CompareType.Match =>
    pure { st1 with refPos := st1.refPos + 1, actPos := st1.actPos + 1 }
  | CompareType.Replacement =>
    pure { st1 with refPos := st1.refPos + 1, actPos := st1.actPos + 1 }
  | CompareType.Deletion => pure { st1 with refPos := st1.refPos + 1 }
  | CompareType.Insertion => pure { st1 with actPos := st1.actPos + 1 }

/-- `PronunciationEvaluator._check_mistakes`: a left fold of `checkStep` over
the alignment operation vector. -/
def checkMistakes (ref act : List String) (st : MistState)
    (ops : List CompareType) : Except EvalError MistState :=
  ops.foldlM (checkStep ref act) st

/-- The initial evaluator state set by `__init__`:
`self.mistakes = []`, `self.matches = 0` (and cursors start at 0). -/
def initState : MistState := MistState.mk [] 0 0 0

/-- Python's `round(x, 2)` on the accuracy value, modelled over `ℚ`:
nearest multiple of `1/100`. -/
def round2 (x : ℚ) : ℚ := ((round (x * 100) : ℤ) : ℚ) / 100

/-- `PronunciationEvaluator._сalculate_accuracy`:
`fine = 1 + abs(len_ref - len_act) / len_ref`, then
`round(matches / (len_ref * fine) * 100, 2)`.  When `len(self.reference)` is
zero the Python division raises `ZeroDivisionError`. -/
def calculateAccuracy (lenRef lenAct : Nat) (matchCount : Nat) :
    Except EvalError ℚ :=
  if lenRef = 0 then Except.error EvalError.zeroDivision
  else
    Except.ok (round2 ((matchCount : ℚ) /
      ((lenRef : ℚ) * (1 + |(lenRef : ℚ) - (lenAct : ℚ)| / (lenRef : ℚ))) * 100))

/-- `PronunciationEvaluator.compare` on already-tokenized sequences (the
`format_="dict"` result): alignment, mistake walk from the fresh instance
state, accuracy, report. -/
def compareTokens (ref act : List String) : Except EvalError Feedback := do
  let ops := getAlign ref act
  let st ← checkMistakes ref act initState ops
  let acc ← calculateAccuracy ref.length act.length st.matchCount
  pure (Feedback.mk acc st.mistakes)

/-- `PronunciationEvaluator(reference, actual).compare()`: `__init__` splits
both strings on whitespace, then `compare` produces the report. -/
def compare (reference actual : String) : Except EvalError Feedback :=
  compareTokens (tokenize reference) (tokenize actual)

/-- Independent reference definition of the classic unit-cost Levenshtein
edit distance (mismatch 1, insertion 1, deletion 1, match 0), by structural
recursion on the front of the two sequences. -/
def levenshtein (xs ys : List String) : Nat :=
  match xs, ys with
  | [], ys => ys.length
  | _ :: xs, [] => xs.length + 1
  | x :: xs, y :: ys =>
    min ((if x = y then 0 else 1) + levenshtein xs ys)
      (min (1 + levenshtein xs (y :: ys)) (1 + levenshtein (x :: xs) ys))
termination_by (xs.length, ys.length)
decreasing_by all_goals (simp_wf; omega)

/-- Modelled from the spec: §4.2 step 3 branch (b), "diagonal move if it is a
cost-1 substitution (`T[i][j]==T[i-1][j-1]+1`) — emit `Replacement`".  Unlike
the code's `_is_replacement` it does not test `ref[i-1] != act[j-1]`; the
`i, j ≠ 0` guards express that a diagonal move must exist. -/
abbrev specIsSubstitutionStep (ref act : List String) (i j : Nat) : Prop :=
  i ≠ 0 ∧ j ≠ 0 ∧ dpt ref act i j = dpt ref act (i - 1) (j - 1) + 1

/-- Modelled from the spec: §4.2 step 3, the traceback walk from `(N, M)` to
`(0, 0)` choosing in strict priority order (a) match diagonal, (b) cost-1
substitution diagonal, (c) vertical (`T[i][j]==T[i-1][j]+1`) emitting
`Deletion`, else (d) horizontal emitting `Insertion`; operations collected
end-to-start. -/
def specTracebackAux (ref act : List String) : Nat → Nat → Nat → List CompareType
  | 0, _, _ => []
  | _ + 1, 0, 0 => []
  | fuel + 1, i, j =>
    if isMatchStep ref act i j then
      CompareType.Match :: specTracebackAux ref act fuel (i - 1) (j - 1)
    else if specIsSubstitutionStep ref act i j then
      CompareType.Replacement :: specTracebackAux ref act fuel (i - 1) (j - 1)
    else if isDeletionStep ref act i j then
      CompareType.Deletion :: specTracebackAux ref act fuel (i - 1) j
    else
      CompareType.Insertion :: specTracebackAux ref act fuel i (j - 1)

/-- Modelled from the spec: §4.2 step 4, the spec-side alignment — the
end-to-start collected operations, reversed to run start-to-end. -/
def specGetAlign (ref act : List String) : List CompareType :=
  (specTracebackAux ref act (ref.length + act.length) ref.length act.length).reverse

/-- Does this operation advance the reference cursor in `_check_mistakes`
(`Match`, `Replacement`, `Deletion` — everything but `Insertion`)? -/
def advancesRef : CompareType → Bool
  | CompareType.Insertion => false
  | CompareType.Replacement => true
  | CompareType.Deletion => true
  | CompareType.Match => true

/-- Does this operation advance the actual cursor in `_check_mistakes`
(`Match`, `Replacement`, `Insertion` — everything but `Deletion`)? -/
def advancesAct : CompareType → Bool
  | CompareType.Deletion => false
  | CompareType.Replacement => true
  | CompareType.Insertion => true
  | CompareType.Match => true

/-- Is this operation counted as a match by `_check_mistakes`? -/
def isMatchOp : CompareType → Bool
  | CompareType.Match => true
  | CompareType.Replacement => false
  | CompareType.Insertion => false
  | CompareType.Deletion => false

/-- Is this operation counted as a mistake by `_check_mistakes`
(any non-`Match` operation)? -/
def isMistakeOp : CompareType → Bool
  | CompareType.Match => false
  | CompareType.Replacement => true
  | CompareType.Insertion => true
  | CompareType.Deletion => true

/-- Safety of the mistake walk over an operation list starting at cursor
positions `(p, q)`: whenever an operation reads `reference[ref_pos]` (every
operation but `Insertion`) the index is in range, and whenever it reads
`actual[act_pos]` (every operation but `Deletion`) the index is in range;
cursors then advance as in `_check_mistakes`. -/
def walkSafe (lenRef lenAct : Nat) : Nat → Nat → List CompareType → Prop
  | _, _, [] => True
  | p, q, op :: rest =>
    (op ≠ CompareType.Insertion → p < lenRef) ∧
    (op ≠ CompareType.Deletion → q < lenAct) ∧
    walkSafe lenRef lenAct (p + (if advancesRef op then 1 else 0))
      (q + (if advancesAct op then 1 else 0)) rest

def exceptDecEq {ε α : Type} [DecidableEq ε] [DecidableEq α] :
    DecidableEq (Except ε α) := fun a b =>
  match a, b with
  | Except.ok x, Except.ok y =>
    if h : x = y then isTrue (by rw [h]) else isFalse (fun hc => h (Except.ok.inj hc))
  | Except.error x, Except.error y =>
    if h : x = y then isTrue (by rw [h]) else isFalse (fun hc => h (Except.error.inj hc))
  | Except.ok _, Except.error _ => isFalse (fun hc => Except.noConfusion hc)
  | Except.error _, Except.ok _ => isFalse (fun hc => Except.noConfusion hc)

instance : DecidableEq (Except EvalError MistState) := exceptDecEq

instance : DecidableEq (Except EvalError Feedback) := exceptDecEq

/-! ### Basic facts about the DP table -/

theorem dpt_zero_left (ref act : List String) (j : Nat) : dpt ref act 0 j = j := rfl

theorem dpt_zero_right (ref act : List String) : ∀ i, dpt ref act i 0 = i
  | 0 => rfl
  | _ + 1 => rfl

theorem dpt_succ_succ (ref act : List String) (i j : Nat) :
    dpt ref act (i + 1) (j + 1) =
      min (dpt ref act i j + (if ref.getD i "" = act.getD j "" then 0 else 1))
        (min (dpt ref act i (j + 1) + 1) (dpt ref act (i + 1) j + 1)) := rfl

/-- Appending one more actual token raises the cost by at most one. -/
theorem dpt_ins_le (ref act : List String) (i j : Nat) :
    dpt ref act i (j + 1) ≤ dpt ref act i j + 1 := by
  cases i with
  | zero => rw [dpt_zero_left, dpt_zero_left]
  | succ i => rw [dpt_succ_succ]; omega

/-- Appending one more reference token raises the cost by at most one. -/
theorem dpt_del_le (ref act : List String) (i j : Nat) :
    dpt ref act (i + 1) j ≤ dpt ref act i j + 1 := by
  cases j with
  | zero => rw [dpt_zero_right, dpt_zero_right]
  | succ j => rw [dpt_succ_succ]; omega

/-- Dropping the last actual token lowers the cost by at most one. -/
theorem dpt_back_ins (ref act : List String) :
    ∀ i j, dpt ref act i j ≤ dpt ref act i (j + 1) + 1 := by
  intro i
  induction i with
  | zero => intro j; rw [dpt_zero_left, dpt_zero_left]; omega
  | succ i ih =>
    intro j
    cases j with
    | zero =>
      have h1 := ih 0
      have h2 := dpt_zero_right ref act i
      have h3 := dpt_zero_right ref act (i + 1)
      have h4 := dpt_succ_succ ref act i 0
      omega
    | succ j =>
      have h4 := dpt_succ_succ ref act i (j + 1)
      have h5 := dpt_del_le ref act i (j + 1)
      have h6 := ih (j + 1)
      omega

/-- Dropping the last reference token lowers the cost by at most one. -/
theorem dpt_back_del (ref act : List String) :
    ∀ j i, dpt ref act i j ≤ dpt ref act (i + 1) j + 1 := by
  intro j
  induction j with
  | zero => intro i; rw [dpt_zero_right, dpt_zero_right]; omega
  | succ j ih =>
    intro i
    cases i with
    | zero =>
      have h1 := ih 0
      have h2 := dpt_zero_left ref act j
      have h3 := dpt_zero_left ref act (j + 1)
      have h4 := dpt_succ_succ ref act 0 j
      omega
    | succ i =>
      have h4 := dpt_succ_succ ref act (i + 1) j
      have h5 := dpt_ins_le ref act (i + 1) j
      have h6 := ih (i + 1)
      omega

/-- The table is monotone along the diagonal. -/
theorem dpt_diag_mono (ref act : List String) (i j : Nat) :
    dpt ref act i j ≤ dpt ref act (i + 1) (j + 1) := by
  have h4 := dpt_succ_succ ref act i j
  have h5 := dpt_back_ins ref act i j
  have h6 := dpt_back_del ref act j i
  omega

/-- When the two tokens at a cell agree, the diagonal step is free. -/
theorem dpt_diag_eq_of_eq (ref act : List String) (i j : Nat)
    (h : ref.getD i "" = act.getD j "") :
    dpt ref act (i + 1) (j + 1) = dpt ref act i j := by
  have h4 := dpt_succ_succ ref act i j
  rw [if_pos h] at h4
  have h5 := dpt_diag_mono ref act i j
  omega

/-! ### The DP table computes the Levenshtein distance (claim C1) -/

theorem lev_nil_left (ys : List String) : levenshtein [] ys = ys.length := by
  simp [levenshtein]

theorem lev_nil_right (xs : List String) : levenshtein xs [] = xs.length := by
  cases xs <;> simp [levenshtein]

theorem lev_cons_cons (x : String) (xs : List String) (y : String) (ys : List String) :
    levenshtein (x :: xs) (y :: ys) =
      min ((if x = y then 0 else 1) + levenshtein xs ys)
        (min (1 + levenshtein xs (y :: ys)) (1 + levenshtein (x :: xs) ys)) := by
  simp [levenshtein]

set_option maxHeartbeats 2000000 in
/-- The classic edit distance also satisfies the last-token recurrence. -/
theorem lev_snoc_snoc_aux : ∀ n : Nat, ∀ xs ys : List String, ∀ x y : String,
    xs.length + ys.length ≤ n →
    levenshtein (xs ++ [x]) (ys ++ [y]) =
      min ((if x = y then 0 else 1) + levenshtein xs ys)
        (min (1 + levenshtein xs (ys ++ [y])) (1 + levenshtein (xs ++ [x]) ys)) := by
  intro n
  induction n with
  | zero =>
    intro xs ys x y h
    rcases xs with _ | ⟨u, us⟩ <;> rcases ys with _ | ⟨z, zs⟩
    · simp only [List.nil_append]
      rw [lev_cons_cons x [] y []]
    · exact absurd h (by simp only [List.length_cons, List.length_nil]; omega)
    · exact absurd h (by simp only [List.length_cons, List.length_nil]; omega)
    · exact absurd h (by simp only [List.length_cons, List.length_nil]; omega)
  | succ n ih =>
    intro xs ys x y h
    rcases xs with _ | ⟨u, us⟩ <;> rcases ys with _ | ⟨z, zs⟩
    · simp only [List.nil_append]
      rw [lev_cons_cons x [] y []]
    · have ihz := ih [] zs x y (by simp only [List.length_cons, List.length_nil] at h ⊢; omega)
      simp only [List.nil_append, List.cons_append] at ihz ⊢
      rw [lev_cons_cons x [] z (zs ++ [y])]
      rw [lev_cons_cons x [] z zs]
      rw [ihz]
      simp only [lev_nil_left, List.length_append, List.length_cons, List.length_nil]
      omega
    · have ihu := ih us [] x y (by simp only [List.length_cons, List.length_nil] at h ⊢; omega)
      simp only [List.nil_append, List.cons_append] at ihu ⊢
      rw [lev_cons_cons u (us ++ [x]) y []]
      rw [lev_cons_cons u us y []]
      rw [ihu]
      simp only [lev_nil_right, lev_nil_left, List.length_append, List.length_cons,
        List.length_nil]
      omega
    · have ih1 := ih us zs x y (by simp only [List.length_cons] at h ⊢; omega)
      have ih2 := ih us (z :: zs) x y (by simp only [List.length_cons] at h ⊢; omega)
      have ih3 := ih (u :: us) zs x y (by simp only [List.length_cons] at h ⊢; omega)
      simp only [List.cons_append] at ih1 ih2 ih3 ⊢
      rw [lev_cons_cons u (us ++ [x]) z (zs ++ [y])]
      rw [lev_cons_cons u us z zs]
      rw [lev_cons_cons u us z (zs ++ [y])]
      rw [lev_cons_cons u (us ++ [x]) z zs]
      rw [ih1, ih2, ih3]
      refine le_antisymm ?_ ?_ <;> simp only [le_min_iff, min_le_iff] <;> omega

/-- The classic edit distance is invariant under reversing both sequences. -/
theorem lev_reverse_aux : ∀ n : Nat, ∀ xs ys : List String,
    xs.length + ys.length ≤ n →
    levenshtein xs.reverse ys.reverse = levenshtein xs ys := by
  intro n
  induction n with
  | zero =>
    intro xs ys h
    rcases xs with _ | ⟨x, xs⟩ <;> rcases ys with _ | ⟨y, ys⟩
    · rfl
    · exact absurd h (by simp only [List.length_cons, List.length_nil]; omega)
    · exact absurd h (by simp only [List.length_cons, List.length_nil]; omega)
    · exact absurd h (by simp only [List.length_cons, List.length_nil]; omega)
  | succ n ih =>
    intro xs ys h
    rcases xs with _ | ⟨x, xs⟩ <;> rcases ys with _ | ⟨y, ys⟩
    · rfl
    · simp [lev_nil_left]
    · simp [lev_nil_right, lev_nil_left]
    · rw [List.reverse_cons, List.reverse_cons]
      rw [lev_snoc_snoc_aux (xs.reverse.length + ys.reverse.length) xs.reverse ys.reverse x y
        (le_refl _)]
      rw [ih xs ys (by simp only [List.length_cons] at h; omega)]
      rw [show ys.reverse ++ [y] = (y :: ys).reverse by rw [List.reverse_cons]]
      rw [ih xs (y :: ys) (by simp only [List.length_cons] at h ⊢; omega)]
      rw [show xs.reverse ++ [x] = (x :: xs).reverse by rw [List.reverse_cons]]
      rw [ih (x :: xs) ys (by simp only [List.length_cons] at h ⊢; omega)]
      rw [lev_cons_cons]

theorem lev_reverse (xs ys : List String) :
    levenshtein xs.reverse ys.reverse = levenshtein xs ys :=
  lev_reverse_aux (xs.length + ys.length) xs ys (le_refl _)

/-- In-range `take` of one more element, reversed, exposes the last token. -/
theorem take_reverse_succ (l : List String) (i : Nat) (h : i < l.length) :
    (l.take (i + 1)).reverse = l.getD i "" :: (l.take i).reverse := by
  rw [List.take_succ, List.reverse_append]
  have hg : l[i]? = some (l.getD i "") := by
    rw [List.getD_eq_getElem?_getD]
    cases hx : l[i]? with
    | none =>
      rw [List.getElem?_eq_none_iff] at hx
      omega
    | some v => rfl
  rw [hg]
  simp

/-- Cell `(i, j)` of the DP table is the edit distance between the reversed
`i`-token prefix of the reference and the reversed `j`-token prefix of the
actual sequence. -/
theorem dpt_take_aux (ref act : List String) : ∀ n i j, i + j ≤ n →
    i ≤ ref.length → j ≤ act.length →
    dpt ref act i j = levenshtein ((ref.take i).reverse) ((act.take j).reverse) := by
  intro n
  induction n with
  | zero =>
    intro i j hn hi hj
    have hi0 : i = 0 := by omega
    have hj0 : j = 0 := by omega
    subst hi0; subst hj0
    simp [dpt_zero_left, lev_nil_left]
  | succ n ih =>
    intro i j hn hi hj
    rcases i with _ | i
    · rw [dpt_zero_left]
      simp only [List.take_zero, List.reverse_nil, lev_nil_left, List.length_reverse,
        List.length_take]
      omega
    · rcases j with _ | j
      · rw [dpt_zero_right]
        simp only [List.take_zero, List.reverse_nil, lev_nil_right, List.length_reverse,
          List.length_take]
        omega
      · rw [dpt_succ_succ]
        rw [take_reverse_succ ref i (by omega), take_reverse_succ act j (by omega)]
        rw [lev_cons_cons]
        rw [← take_reverse_succ ref i (by omega), ← take_reverse_succ act j (by omega)]
        rw [← ih i j (by omega) (by omega) (by omega)]
        rw [← ih i (j + 1) (by omega) (by omega) (by omega)]
        rw [← ih (i + 1) j (by omega) (by omega) (by omega)]
        omega

/-- The bottom-right DP cell is the edit distance of the full sequences. -/
theorem dpt_eq_levenshtein (ref act : List String) :
    dpt ref act ref.length act.length = levenshtein ref act := by
  rw [dpt_take_aux ref act (ref.length + act.length) ref.length act.length (le_refl _)
    (le_refl _) (le_refl _)]
  rw [List.take_length, List.take_length]
  exact lev_reverse ref act

/-! ### Traceback: unfolding, fuel irrelevance, cursor counts (claims C3, C8) -/

theorem tracebackAux_zero_zero (ref act : List String) (fuel : Nat) :
    tracebackAux ref act fuel 0 0 = [] := by
  cases fuel <;> rfl

theorem tracebackAux_succ (ref act : List String) (fuel i j : Nat)
    (hij : ¬(i = 0 ∧ j = 0)) :
    tracebackAux ref act (fuel + 1) i j =
      if isMatchStep ref act i j then
        CompareType.Match :: tracebackAux ref act fuel (i - 1) (j - 1)
      else if isReplacementStep ref act i j then
        CompareType.Replacement :: tracebackAux ref act fuel (i - 1) (j - 1)
      else if isDeletionStep ref act i j then
        CompareType.Deletion :: tracebackAux ref act fuel (i - 1) j
      else
        CompareType.Insertion :: tracebackAux ref act fuel i (j - 1) := by
  rcases i with _ | i
  · rcases j with _ | j
    · exact absurd ⟨rfl, rfl⟩ hij
    · rfl
  · rcases j with _ | j <;> rfl

/-- At the left edge of the table with `i > 0` the deletion test of the
traceback is always true: `dp[i][0] = i = dp[i-1][0] + 1`. -/
theorem isDeletionStep_left_edge (ref act : List String) (i : Nat) (hi : i ≠ 0) :
    isDeletionStep ref act i 0 := by
  refine ⟨hi, ?_⟩
  rw [dpt_zero_right, dpt_zero_right]
  omega

/-- In the final (insertion) branch of the traceback the actual cursor is
positive: the branch guards rule out every `j = 0` cell. -/
theorem insertion_branch_j_pos (ref act : List String) (i j : Nat)
    (hij : ¬(i = 0 ∧ j = 0)) (hd : ¬isDeletionStep ref act i j) : j ≠ 0 := by
  intro h0
  subst h0
  have hi : i ≠ 0 := fun h => hij ⟨h, rfl⟩
  exact hd (isDeletionStep_left_edge ref act i hi)

/-- Any fuel at least `i + j` gives the same traceback: each iteration
strictly decreases `i + j`. -/
theorem tracebackAux_fuel (ref act : List String) :
    ∀ f1 f2 i j, i + j ≤ f1 → i + j ≤ f2 →
    tracebackAux ref act f1 i j = tracebackAux ref act f2 i j := by
  intro f1
  induction f1 with
  | zero =>
    intro f2 i j h1 h2
    have hi : i = 0 := by omega
    have hj : j = 0 := by omega
    subst hi; subst hj
    rw [tracebackAux_zero_zero, tracebackAux_zero_zero]
  | succ f1 ih =>
    intro f2 i j h1 h2
    by_cases hij : i = 0 ∧ j = 0
    · obtain ⟨hi, hj⟩ := hij
      subst hi; subst hj
      rw [tracebackAux_zero_zero, tracebackAux_zero_zero]
    · rcases f2 with _ | f2
      · omega
      · rw [tracebackAux_succ ref act f1 i j hij, tracebackAux_succ ref act f2 i j hij]
        by_cases hm : isMatchStep ref act i j
        · rw [if_pos hm, if_pos hm]
          have hi := hm.1
          have hj := hm.2.1
          rw [ih f2 (i - 1) (j - 1) (by omega) (by omega)]
        · rw [if_neg hm, if_neg hm]
          by_cases hr : isReplacementStep ref act i j
          · rw [if_pos hr, if_pos hr]
            have hi := hr.1
            have hj := hr.2.1
            rw [ih f2 (i - 1) (j - 1) (by omega) (by omega)]
          · rw [if_neg hr, if_neg hr]
            by_cases hd : isDeletionStep ref act i j
            · rw [if_pos hd, if_pos hd]
              have hi := hd.1
              rw [ih f2 (i - 1) j (by omega) (by omega)]
            · rw [if_neg hd, if_neg hd]
              have hj := insertion_branch_j_pos ref act i j hij hd
              rw [ih f2 i (j - 1) (by omega) (by omega)]

/-- The traceback emits exactly `i` reference-advancing and `j`
actual-advancing operations. -/
theorem tracebackAux_counts (ref act : List String) :
    ∀ fuel i j, i + j ≤ fuel →
    (tracebackAux ref act fuel i j).countP advancesRef = i ∧
    (tracebackAux ref act fuel i j).countP advancesAct = j := by
  intro fuel
  induction fuel with
  | zero =>
    intro i j h
    have hi : i = 0 := by omega
    have hj : j = 0 := by omega
    subst hi; subst hj
    rw [tracebackAux_zero_zero]
    exact ⟨rfl, rfl⟩
  | succ fuel ih =>
    intro i j h
    by_cases hij : i = 0 ∧ j = 0
    · obtain ⟨hi, hj⟩ := hij
      subst hi; subst hj
      rw [tracebackAux_zero_zero]
      exact ⟨rfl, rfl⟩
    · rw [tracebackAux_succ ref act fuel i j hij]
      by_cases hm : isMatchStep ref act i j
      · rw [if_pos hm]
        have h1 := hm.1
        have h2 := hm.2.1
        have := ih (i - 1) (j - 1) (by omega)
        simp [List.countP_cons, advancesRef, advancesAct]
        omega
      · rw [if_neg hm]
        by_cases hr : isReplacementStep ref act i j
        · rw [if_pos hr]
          have h1 := hr.1
          have h2 := hr.2.1
          have := ih (i - 1) (j - 1) (by omega)
          simp [List.countP_cons, advancesRef, advancesAct]
          omega
        · rw [if_neg hr]
          by_cases hd : isDeletionStep ref act i j
          · rw [if_pos hd]
            have h1 := hd.1
            have := ih (i - 1) j (by omega)
            simp [List.countP_cons, advancesRef, advancesAct]
            omega
          · rw [if_neg hd]
            have hj := insertion_branch_j_pos ref act i j hij hd
            have := ih i (j - 1) (by omega)
            simp [List.countP_cons, advancesRef, advancesAct]
            omega

/-- Every alignment operation advances at least one cursor. -/
theorem length_le_countP_add_countP :
    ∀ l : List CompareType, l.length ≤ l.countP advancesRef + l.countP advancesAct := by
  intro l
  induction l with
  | nil => simp
  | cons op rest ih =>
    simp only [List.length_cons, List.countP_cons]
    cases op <;> simp [advancesRef, advancesAct] <;> omega

/-- `countP` is invariant under list reversal. -/
theorem countP_reverse (p : CompareType → Bool) :
    ∀ l : List CompareType, l.reverse.countP p = l.countP p := by
  intro l
  induction l with
  | nil => rfl
  | cons op rest ih =>
    rw [List.reverse_cons, List.countP_append, List.countP_cons]
    simp only [List.countP_cons, List.countP_nil]
    omega

/-! ### Safety of the mistake walk (claims C10, C2, C3, C6) -/

theorem walkSafe_nil (L A p q : Nat) : walkSafe L A p q [] := trivial

theorem walkSafe_single (L A p q : Nat) (op : CompareType)
    (hp : op ≠ CompareType.Insertion → p < L)
    (hq : op ≠ CompareType.Deletion → q < A) :
    walkSafe L A p q [op] := ⟨hp, hq, trivial⟩

theorem walkSafe_append (L A : Nat) :
    ∀ (l1 l2 : List CompareType) (p q : Nat),
    walkSafe L A p q (l1 ++ l2) ↔
      walkSafe L A p q l1 ∧
      walkSafe L A (p + l1.countP advancesRef) (q + l1.countP advancesAct) l2 := by
  intro l1
  induction l1 with
  | nil =>
    intro l2 p q
    simp [walkSafe]
  | cons op rest ih =>
    intro l2 p q
    simp only [List.cons_append, walkSafe, List.append_eq, ih, List.countP_cons]
    rw [show p + (if advancesRef op then 1 else 0) + rest.countP advancesRef =
      p + (rest.countP advancesRef + if advancesRef op then 1 else 0) from by omega]
    rw [show q + (if advancesAct op then 1 else 0) + rest.countP advancesAct =
      q + (rest.countP advancesAct + if advancesAct op then 1 else 0) from by omega]
    tauto

/-- The start-to-end walk of any traceback segment, starting at the origin,
keeps every index it reads in range (provided the segment's cell is inside
the table). -/
theorem traceback_safe (ref act : List String) :
    ∀ fuel i j, i + j ≤ fuel → i ≤ ref.length → j ≤ act.length →
    walkSafe ref.length act.length 0 0 ((tracebackAux ref act fuel i j).reverse) := by
  intro fuel
  induction fuel with
  | zero =>
    intro i j h hi hj
    have h1 : i = 0 := by omega
    have h2 : j = 0 := by omega
    subst h1; subst h2
    rw [tracebackAux_zero_zero]
    exact walkSafe_nil _ _ _ _
  | succ fuel ih =>
    intro i j h hi hj
    by_cases hij : i = 0 ∧ j = 0
    · obtain ⟨h1, h2⟩ := hij
      subst h1; subst h2
      rw [tracebackAux_zero_zero]
      exact walkSafe_nil _ _ _ _
    · rw [tracebackAux_succ ref act fuel i j hij]
      have hcount : ∀ i2 j2, i2 + j2 ≤ fuel →
          ((tracebackAux ref act fuel i2 j2).reverse.countP advancesRef = i2 ∧
           (tracebackAux ref act fuel i2 j2).reverse.countP advancesAct = j2) := by
        intro i2 j2 h2
        rw [countP_reverse, countP_reverse]
        exact tracebackAux_counts ref act fuel i2 j2 h2
      by_cases hm : isMatchStep ref act i j
      · rw [if_pos hm]
        have h1 := hm.1
        have h2 := hm.2.1
        rw [List.reverse_cons, walkSafe_append]
        refine ⟨ih (i - 1) (j - 1) (by omega) (by omega) (by omega), ?_⟩
        rw [(hcount (i - 1) (j - 1) (by omega)).1, (hcount (i - 1) (j - 1) (by omega)).2]
        exact walkSafe_single _ _ _ _ _ (fun _ => by omega) (fun _ => by omega)
      · rw [if_neg hm]
        by_cases hr : isReplacementStep ref act i j
        · rw [if_pos hr]
          have h1 := hr.1
          have h2 := hr.2.1
          rw [List.reverse_cons, walkSafe_append]
          refine ⟨ih (i - 1) (j - 1) (by omega) (by omega) (by omega), ?_⟩
          rw [(hcount (i - 1) (j - 1) (by omega)).1, (hcount (i - 1) (j - 1) (by omega)).2]
          exact walkSafe_single _ _ _ _ _ (fun _ => by omega) (fun _ => by omega)
        · rw [if_neg hr]
          by_cases hd : isDeletionStep ref act i j
          · rw [if_pos hd]
            have h1 := hd.1
            rw [List.reverse_cons, walkSafe_append]
            refine ⟨ih (i - 1) j (by omega) (by omega) (by omega), ?_⟩
            rw [(hcount (i - 1) j (by omega)).1, (hcount (i - 1) j (by omega)).2]
            refine walkSafe_single _ _ _ _ _ (fun _ => by omega) (fun hc => absurd rfl hc)
          · rw [if_neg hd]
            have h2 := insertion_branch_j_pos ref act i j hij hd
            rw [List.reverse_cons, walkSafe_append]
            refine ⟨ih i (j - 1) (by omega) (by omega) (by omega), ?_⟩
            rw [(hcount i (j - 1) (by omega)).1, (hcount i (j - 1) (by omega)).2]
            refine walkSafe_single _ _ _ _ _ (fun hc => absurd rfl hc) (fun _ => by omega)

/-- The whole alignment walk, from the fresh cursors, is safe. -/
theorem getAlign_walkSafe (ref act : List String) :
    walkSafe ref.length act.length 0 0 (getAlign ref act) :=
  traceback_safe ref act (ref.length + act.length) ref.length act.length (le_refl _)
    (le_refl _) (le_refl _)

/-! ### The mistake walk: evaluation lemmas -/

theorem get?_eq_getD (l : List String) (i : Nat) (h : i < l.length) :
    l.get? i = some (l.getD i "") := by
  rw [List.getD_eq_getElem?_getD, List.get?_eq_getElem?]
  cases hx : l[i]? with
  | none =>
    rw [List.getElem?_eq_none_iff] at hx
    omega
  | some v => rfl

theorem listGetE_ok (l : List String) (i : Nat) (h : i < l.length) :
    listGetE l i = Except.ok (l.getD i "") := by
  rw [listGetE, get?_eq_getD l i h]

theorem checkStep_match (ref act : List String) (st : MistState) :
    checkStep ref act st CompareType.Match =
      Except.ok (MistState.mk st.mistakes (st.matchCount + 1) (st.refPos + 1)
        (st.actPos + 1)) := rfl

theorem checkStep_replacement (ref act : List String) (st : MistState)
    (hp : st.refPos < ref.length) (hq : st.actPos < act.length) :
    checkStep ref act st CompareType.Replacement =
      Except.ok (MistState.mk
        (st.mistakes ++ [PhoneticMistake.mk
          (some (Phoneme.mk st.refPos (ref.getD st.refPos "")))
          (some (Phoneme.mk st.actPos (act.getD st.actPos "")))
          CompareType.Replacement])
        st.matchCount (st.refPos + 1) (st.actPos + 1)) := by
  simp [checkStep, constructError, listGetE_ok ref st.refPos hp,
    listGetE_ok act st.actPos hq, bind, Except.bind, pure, Except.pure]

theorem checkStep_deletion (ref act : List String) (st : MistState)
    (hp : st.refPos < ref.length) :
    checkStep ref act st CompareType.Deletion =
      Except.ok (MistState.mk
        (st.mistakes ++ [PhoneticMistake.mk
          (some (Phoneme.mk st.refPos (ref.getD st.refPos ""))) none
          CompareType.Deletion])
        st.matchCount (st.refPos + 1) st.actPos) := by
  simp [checkStep, constructError, listGetE_ok ref st.refPos hp,
    bind, Except.bind, pure, Except.pure]

theorem checkStep_insertion (ref act : List String) (st : MistState)
    (hq : st.actPos < act.length) :
    checkStep ref act st CompareType.Insertion =
      Except.ok (MistState.mk
        (st.mistakes ++ [PhoneticMistake.mk none
          (some (Phoneme.mk st.actPos (act.getD st.actPos "")))
          CompareType.Insertion])
        st.matchCount st.refPos (st.actPos + 1)) := by
  simp [checkStep, constructError, listGetE_ok act st.actPos hq,
    bind, Except.bind, pure, Except.pure]

theorem checkMistakes_nil (ref act : List String) (st : MistState) :
    checkMistakes ref act st [] = Except.ok st := rfl

theorem checkMistakes_cons (ref act : List String) (st : MistState)
    (op : CompareType) (rest : List CompareType) :
    checkMistakes ref act st (op :: rest) =
      bind (checkStep ref act st op) (fun st1 => checkMistakes ref act st1 rest) := rfl

/-- A safe walk never raises: it returns a final state whose match count,
mistake count and cursors are the respective counts over the operations. -/
theorem checkMistakes_ok (ref act : List String) :
    ∀ (ops : List CompareType) (st : MistState),
    walkSafe ref.length act.length st.refPos st.actPos ops →
    ∃ st2, checkMistakes ref act st ops = Except.ok st2 ∧
      st2.matchCount = st.matchCount + ops.countP isMatchOp ∧
      st2.mistakes.length = st.mistakes.length + ops.countP isMistakeOp ∧
      st2.refPos = st.refPos + ops.countP advancesRef ∧
      st2.actPos = st.actPos + ops.countP advancesAct := by
  intro ops
  induction ops with
  | nil =>
    intro st hw
    exact ⟨st, rfl, by simp, by simp, by simp, by simp⟩
  | cons op rest ih =>
    intro st hw
    obtain ⟨hp, hq, htail⟩ := hw
    cases op with
    | Match =>
      rw [checkMistakes_cons, checkStep_match]
      obtain ⟨st2, he, h1, h2, h3, h4⟩ :=
        ih (MistState.mk st.mistakes (st.matchCount + 1) (st.refPos + 1) (st.actPos + 1))
          (by simpa [advancesRef, advancesAct] using htail)
      refine ⟨st2, by simpa [bind, Except.bind] using he, ?_, ?_, ?_, ?_⟩ <;>
        simp_all [List.countP_cons, isMatchOp, isMistakeOp, advancesRef, advancesAct] <;>
        omega
    | Replacement =>
      rw [checkMistakes_cons, checkStep_replacement ref act st (hp (by simp)) (hq (by simp))]
      obtain ⟨st2, he, h1, h2, h3, h4⟩ :=
        ih (MistState.mk (st.mistakes ++ [PhoneticMistake.mk
            (some (Phoneme.mk st.refPos (ref.getD st.refPos "")))
            (some (Phoneme.mk st.actPos (act.getD st.actPos "")))
            CompareType.Replacement]) st.matchCount (st.refPos + 1) (st.actPos + 1))
          (by simpa [advancesRef, advancesAct] using htail)
      refine ⟨st2, by simpa [bind, Except.bind] using he, ?_, ?_, ?_, ?_⟩ <;>
        simp_all [List.countP_cons, isMatchOp, isMistakeOp, advancesRef, advancesAct,
          List.length_append] <;>
        omega
    | Deletion =>
      rw [checkMistakes_cons, checkStep_deletion ref act st (hp (by simp))]
      obtain ⟨st2, he, h1, h2, h3, h4⟩ :=
        ih (MistState.mk (st.mistakes ++ [PhoneticMistake.mk
            (some (Phoneme.mk st.refPos (ref.getD st.refPos ""))) none
            CompareType.Deletion]) st.matchCount (st.refPos + 1) st.actPos)
          (by simpa [advancesRef, advancesAct] using htail)
      refine ⟨st2, by simpa [bind, Except.bind] using he, ?_, ?_, ?_, ?_⟩ <;>
        simp_all [List.countP_cons, isMatchOp, isMistakeOp, advancesRef, advancesAct,
          List.length_append] <;>
        omega
    | Insertion =>
      rw [checkMistakes_cons, checkStep_insertion ref act st (hq (by simp))]
      obtain ⟨st2, he, h1, h2, h3, h4⟩ :=
        ih (MistState.mk (st.mistakes ++ [PhoneticMistake.mk none
            (some (Phoneme.mk st.actPos (act.getD st.actPos "")))
            CompareType.Insertion]) st.matchCount st.refPos (st.actPos + 1))
          (by simpa [advancesRef, advancesAct] using htail)
      refine ⟨st2, by simpa [bind, Except.bind] using he, ?_, ?_, ?_, ?_⟩ <;>
        simp_all [List.countP_cons, isMatchOp, isMistakeOp, advancesRef, advancesAct,
          List.length_append] <;>
        omega

/-! ### The traceback follows the spec's tie-break policy (claim C4) -/

theorem specTracebackAux_zero_zero (ref act : List String) (fuel : Nat) :
    specTracebackAux ref act fuel 0 0 = [] := by
  cases fuel <;> rfl

theorem specTracebackAux_succ (ref act : List String) (fuel i j : Nat)
    (hij : ¬(i = 0 ∧ j = 0)) :
    specTracebackAux ref act (fuel + 1) i j =
      if isMatchStep ref act i j then
        CompareType.Match :: specTracebackAux ref act fuel (i - 1) (j - 1)
      else if specIsSubstitutionStep ref act i j then
        CompareType.Replacement :: specTracebackAux ref act fuel (i - 1) (j - 1)
      else if isDeletionStep ref act i j then
        CompareType.Deletion :: specTracebackAux ref act fuel (i - 1) j
      else
        CompareType.Insertion :: specTracebackAux ref act fuel i (j - 1) := by
  rcases i with _ | i
  · rcases j with _ | j
    · exact absurd ⟨rfl, rfl⟩ hij
    · rfl
  · rcases j with _ | j <;> rfl

/-- After the match test fails, the spec's substitution test (which omits the
token-inequality check) agrees with the code's replacement test: equal tokens
force `dp[i][j] = dp[i-1][j-1]`, so a cost-1 diagonal implies unequal
tokens. -/
theorem specIsSubstitutionStep_iff (ref act : List String) (i j : Nat) :
    specIsSubstitutionStep ref act i j ↔ isReplacementStep ref act i j := by
  constructor
  · rintro ⟨h1, h2, h3⟩
    refine ⟨h1, h2, ?_, h3⟩
    intro heq
    have hi1 : i - 1 + 1 = i := by omega
    have hj1 : j - 1 + 1 = j := by omega
    have hdiag := dpt_diag_eq_of_eq ref act (i - 1) (j - 1) heq
    rw [hi1, hj1] at hdiag
    omega
  · rintro ⟨h1, h2, h3, h4⟩
    exact ⟨h1, h2, h4⟩

theorem specTracebackAux_eq (ref act : List String) :
    ∀ fuel i j, specTracebackAux ref act fuel i j = tracebackAux ref act fuel i j := by
  intro fuel
  induction fuel with
  | zero => intro i j; rfl
  | succ fuel ih =>
    intro i j
    by_cases hij : i = 0 ∧ j = 0
    · obtain ⟨h1, h2⟩ := hij
      subst h1; subst h2
      rw [specTracebackAux_zero_zero, tracebackAux_zero_zero]
    · rw [specTracebackAux_succ ref act fuel i j hij, tracebackAux_succ ref act fuel i j hij]
      by_cases hm : isMatchStep ref act i j
      · rw [if_pos hm, if_pos hm, ih]
      · rw [if_neg hm, if_neg hm]
        by_cases hs : specIsSubstitutionStep ref act i j
        · rw [if_pos hs, if_pos ((specIsSubstitutionStep_iff ref act i j).mp hs), ih]
        · rw [if_neg hs,
            if_neg (fun hr => hs ((specIsSubstitutionStep_iff ref act i j).mpr hr))]
          by_cases hd : isDeletionStep ref act i j
          · rw [if_pos hd, if_pos hd, ih]
          · rw [if_neg hd, if_neg hd, ih]

/-! ### Empty actual sequence: a pure run of deletions (claim C9) -/

theorem tracebackAux_act_nil (ref : List String) :
    ∀ fuel i, i ≤ fuel →
    tracebackAux ref [] fuel i 0 = List.replicate i CompareType.Deletion := by
  intro fuel
  induction fuel with
  | zero =>
    intro i h
    have h0 : i = 0 := by omega
    subst h0
    rw [tracebackAux_zero_zero]
    rfl
  | succ fuel ih =>
    intro i h
    rcases i with _ | i
    · rw [tracebackAux_zero_zero]
      rfl
    · rw [tracebackAux_succ ref [] fuel (i + 1) 0 (by simp)]
      rw [if_neg (fun hm => hm.2.1 rfl), if_neg (fun hr => hr.2.1 rfl),
        if_pos (isDeletionStep_left_edge ref [] (i + 1) (by simp))]
      simp only [Nat.add_sub_cancel]
      rw [ih i (by omega)]
      rfl

theorem getAlign_act_nil (ref : List String) :
    getAlign ref [] = List.replicate ref.length CompareType.Deletion := by
  rw [getAlign]
  simp only [List.length_nil, Nat.add_zero]
  rw [tracebackAux_act_nil ref ref.length ref.length (le_refl _)]
  exact List.reverse_replicate ref.length CompareType.Deletion

/-- Walking a run of `k` deletions from cursor `p` appends the `k` reference
tokens from position `p` on, each as a `Deletion` mistake with no actual
token, and moves only the reference cursor. -/
theorem checkMistakes_deletions (ref act : List String) :
    ∀ (k p : Nat) (ms : List PhoneticMistake) (mm qa : Nat), p + k ≤ ref.length →
    checkMistakes ref act (MistState.mk ms mm p qa)
        (List.replicate k CompareType.Deletion) =
      Except.ok (MistState.mk
        (ms ++ (List.range k).map (fun t => PhoneticMistake.mk
          (some (Phoneme.mk (p + t) (ref.getD (p + t) ""))) none CompareType.Deletion))
        mm (p + k) qa) := by
  intro k
  induction k with
  | zero =>
    intro p ms mm qa h
    simp [checkMistakes_nil]
  | succ k ih =>
    intro p ms mm qa h
    rw [List.replicate_succ, checkMistakes_cons,
      checkStep_deletion ref act _ (by simp only []; omega)]
    simp only [bind, Except.bind]
    rw [ih (p + 1) _ mm qa (by omega)]
    have hfun : (fun t => PhoneticMistake.mk
        (some (Phoneme.mk (p + 1 + t) (ref.getD (p + 1 + t) ""))) none
        CompareType.Deletion) =
        (fun t => PhoneticMistake.mk
        (some (Phoneme.mk (p + (t + 1)) (ref.getD (p + (t + 1)) ""))) none
        CompareType.Deletion) := by
      funext t
      rw [show p + 1 + t = p + (t + 1) from by omega]
    have hlist : (ms ++ [PhoneticMistake.mk
          (some (Phoneme.mk p (ref.getD p ""))) none CompareType.Deletion]) ++
        (List.range k).map (fun t => PhoneticMistake.mk
          (some (Phoneme.mk (p + 1 + t) (ref.getD (p + 1 + t) ""))) none
          CompareType.Deletion) =
        ms ++ (List.range (k + 1)).map (fun t => PhoneticMistake.mk
          (some (Phoneme.mk (p + t) (ref.getD (p + t) ""))) none
          CompareType.Deletion) := by
      rw [List.append_assoc]
      congr 1
      rw [List.range_succ_eq_map, List.map_cons, List.map_map, hfun]
      congr 1
    rw [hlist, show p + 1 + k = p + (k + 1) from by omega]

/-- Zero matches give accuracy `0` (for a nonzero reference length). -/
theorem calculateAccuracy_zero_matches (lenRef lenAct : Nat) (hN : lenRef ≠ 0) :
    calculateAccuracy lenRef lenAct 0 = Except.ok 0 := by
  rw [calculateAccuracy, if_neg hN]
  simp [round2]

/-! ### Accuracy bounds (claim C6) -/

theorem round2_bounds (x : ℚ) (h0 : 0 ≤ x) (h100 : x ≤ 100) :
    0 ≤ round2 x ∧ round2 x ≤ 100 := by
  rw [round2]
  constructor
  · apply div_nonneg _ (by norm_num)
    have hr : (0 : ℤ) ≤ round (x * 100) := by
      rw [round_eq]
      apply Int.le_floor.mpr
      push_cast
      linarith
    exact_mod_cast hr
  · rw [div_le_iff₀ (by norm_num : (0 : ℚ) < 100)]
    have hr : round (x * 100) ≤ 10000 := by
      rw [round_eq]
      have hf : (⌊x * 100 + 1 / 2⌋ : ℤ) < 10001 := by
        rw [Int.floor_lt]
        push_cast
        linarith
      omega
    calc ((round (x * 100) : ℤ) : ℚ) ≤ ((10000 : ℤ) : ℚ) := by exact_mod_cast hr
      _ = 100 * 100 := by norm_num

theorem countP_le_countP (p q : CompareType → Bool)
    (himp : ∀ op, p op = true → q op = true) :
    ∀ l : List CompareType, l.countP p ≤ l.countP q := by
  intro l
  induction l with
  | nil => simp
  | cons op rest ih =>
    simp only [List.countP_cons]
    by_cases hp : p op
    · rw [if_pos hp, if_pos (himp op hp)]
      omega
    · rw [if_neg hp]
      split <;> omega

/-- Success characterization of the whole evaluation on token sequences with
a nonempty reference: the walk succeeds, the match count is at most the
reference length, and the report carries the canonical accuracy value. -/
theorem compareTokens_ok (ref act : List String) (href : ref ≠ []) :
    ∃ st, checkMistakes ref act initState (getAlign ref act) = Except.ok st ∧
      st.matchCount ≤ ref.length ∧
      compareTokens ref act = Except.ok (Feedback.mk
        (round2 ((st.matchCount : ℚ) / ((ref.length : ℚ) *
          (1 + |(ref.length : ℚ) - (act.length : ℚ)| / (ref.length : ℚ))) * 100))
        st.mistakes) := by
  obtain ⟨st, he, h1, h2, h3, h4⟩ :=
    checkMistakes_ok ref act (getAlign ref act) initState (getAlign_walkSafe ref act)
  have hcount : (getAlign ref act).countP advancesRef = ref.length := by
    rw [getAlign, countP_reverse]
    exact (tracebackAux_counts ref act (ref.length + act.length) ref.length act.length
      (le_refl _)).1
  have hmono : (getAlign ref act).countP isMatchOp ≤
      (getAlign ref act).countP advancesRef := by
    apply countP_le_countP
    intro op hop
    cases op <;> simp_all [isMatchOp, advancesRef]
  have hle : st.matchCount ≤ ref.length := by
    simp only [initState] at h1
    omega
  refine ⟨st, he, hle, ?_⟩
  rw [compareTokens]
  simp only [bind, Except.bind, he]
  rw [calculateAccuracy,
    if_neg (fun h0 => href (List.length_eq_zero.mp h0))]
  rfl

/-! ### Remaining helpers for the claim theorems -/

/-- With an empty reference token sequence the evaluation always fails: the
accuracy step divides by `len(self.reference) = 0`, raising
`ZeroDivisionError` — there is no dedicated invalid-input check anywhere in
the code. -/
theorem compareTokens_nil_ref (act : List String) :
    compareTokens [] act = Except.error EvalError.zeroDivision := by
  obtain ⟨st, he, h1, h2, h3, h4⟩ :=
    checkMistakes_ok [] act (getAlign [] act) initState (getAlign_walkSafe [] act)
  rw [compareTokens]
  simp only [bind, Except.bind, he]
  rw [show calculateAccuracy ([] : List String).length act.length st.matchCount =
    Except.error EvalError.zeroDivision from by rw [calculateAccuracy]; rfl]

/-- The exact rational the accuracy rounds, for a nonzero reference length
and at most `len_ref` matches, lies in `[0, 100]`. -/
theorem accuracy_expr_range (N M mc : Nat) (hN : N ≠ 0) (hmc : mc ≤ N) :
    0 ≤ (mc : ℚ) / ((N : ℚ) * (1 + |(N : ℚ) - (M : ℚ)| / (N : ℚ))) * 100 ∧
    (mc : ℚ) / ((N : ℚ) * (1 + |(N : ℚ) - (M : ℚ)| / (N : ℚ))) * 100 ≤ 100 := by
  have hN0 : (0 : ℚ) < (N : ℚ) := by exact_mod_cast Nat.pos_of_ne_zero hN
  have habs : (0 : ℚ) ≤ |(N : ℚ) - (M : ℚ)| / (N : ℚ) :=
    div_nonneg (abs_nonneg _) (le_of_lt hN0)
  have hfine : (1 : ℚ) ≤ 1 + |(N : ℚ) - (M : ℚ)| / (N : ℚ) := by linarith
  have hden : (0 : ℚ) < (N : ℚ) * (1 + |(N : ℚ) - (M : ℚ)| / (N : ℚ)) :=
    mul_pos hN0 (by linarith)
  constructor
  · positivity
  · have h1 : (mc : ℚ) ≤ (N : ℚ) := by exact_mod_cast hmc
    have h2 : (N : ℚ) ≤ (N : ℚ) * (1 + |(N : ℚ) - (M : ℚ)| / (N : ℚ)) :=
      le_mul_of_one_le_right (le_of_lt hN0) hfine
    have h3 : (mc : ℚ) / ((N : ℚ) * (1 + |(N : ℚ) - (M : ℚ)| / (N : ℚ))) ≤ 1 := by
      rw [div_le_one hden]
      linarith
    linarith

/-! ### Claim theorems -/

/-- C1: for every pair of token sequences, the DP table built by
`_initialize_dp_table` and `_fill_dp_table` satisfies `T[N][M] =` the classic
unit-cost Levenshtein edit distance (mismatch 1, insertion 1, deletion 1,
match 0) between the two sequences, stated against the independent reference
definition `levenshtein`. -/
theorem c1_dp_table_is_levenshtein (ref act : List String) :
    dpt ref act ref.length act.length = levenshtein ref act :=
  dpt_eq_levenshtein ref act

/-- C2 (code bug): when the reference tokenizes to zero tokens, `compare`
does not reject the input with a dedicated `InvalidInput` error — it fails by
the division by zero inside `_сalculate_accuracy` (`ZeroDivisionError`); with
at least one reference token the evaluation never fails. -/
theorem c2_zero_token_reference_behavior :
    (∀ r a : String, tokenize r = [] →
      compare r a = Except.error EvalError.zeroDivision) ∧
    (∀ r a : String, tokenize r ≠ [] → ∃ fb, compare r a = Except.ok fb) := by
  constructor
  · intro r a h
    rw [compare, h]
    exact compareTokens_nil_ref (tokenize a)
  · intro r a h
    obtain ⟨st, _, _, hok⟩ := compareTokens_ok (tokenize r) (tokenize a) h
    exact ⟨_, hok⟩

theorem c2_witness :
    compare "" "a b" = Except.error EvalError.zeroDivision ∧
    ∃ fb, compare "a" "" = Except.ok fb :=
  ⟨c2_zero_token_reference_behavior.1 "" "a b" (by decide),
   c2_zero_token_reference_behavior.2 "a" "" (by decide)⟩

/-- C3: in the alignment returned by `get_align`, the reference-advancing
operations (`Match`, `Replacement`, `Deletion`) number `len(reference)`, the
actual-advancing operations (`Match`, `Replacement`, `Insertion`) number
`len(actual)`, and after the mistake walk the mistake count plus the match
count equals the total operation count. -/
theorem c3_cursor_count_invariants (ref act : List String) :
    (getAlign ref act).countP advancesRef = ref.length ∧
    (getAlign ref act).countP advancesAct = act.length ∧
    ∃ st, checkMistakes ref act initState (getAlign ref act) = Except.ok st ∧
      st.mistakes.length + st.matchCount = (getAlign ref act).length := by
  have hc := tracebackAux_counts ref act (ref.length + act.length) ref.length act.length
    (le_refl _)
  refine ⟨by rw [getAlign, countP_reverse]; exact hc.1,
    by rw [getAlign, countP_reverse]; exact hc.2, ?_⟩
  obtain ⟨st, he, h1, h2, h3, h4⟩ :=
    checkMistakes_ok ref act (getAlign ref act) initState (getAlign_walkSafe ref act)
  refine ⟨st, he, ?_⟩
  have hsplit : ∀ l : List CompareType,
      l.countP isMistakeOp + l.countP isMatchOp = l.length := by
    intro l
    induction l with
    | nil => simp
    | cons op rest ih =>
      simp only [List.countP_cons, List.length_cons]
      cases op <;> simp [isMistakeOp, isMatchOp] <;> omega
  have hs := hsplit (getAlign ref act)
  have hi1 : initState.matchCount = 0 := rfl
  have hi2 : initState.mistakes.length = 0 := rfl
  omega

/-- C4: the traceback walks from `(N, M)` to `(0, 0)` choosing, in strict
priority order, matching diagonal (`Match`), cost-1 substitution diagonal
(`Replacement`), vertical (`Deletion`), else horizontal (`Insertion`), and
the collected operations are reversed before being returned; stated as
equality with the traceback modelled verbatim from the spec's wording. -/
theorem c4_traceback_policy (ref act : List String) :
    getAlign ref act =
      (specTracebackAux ref act (ref.length + act.length)
        ref.length act.length).reverse := by
  rw [getAlign, specTracebackAux_eq]

/-- C5: evaluating reference `"a b c"` against actual `"a c"` yields exactly
one mistake — a `Deletion` of reference token `"b"` at position 1 with no
actual token — and accuracy `50`. -/
theorem c5_pure_deletion_fixture :
    compare "a b c" "a c" = Except.ok (Feedback.mk 50
      [PhoneticMistake.mk (some (Phoneme.mk 1 "b")) none CompareType.Deletion]) := by
  have htok : tokenize "a b c" = ["a", "b", "c"] := by decide
  have htok2 : tokenize "a c" = ["a", "c"] := by decide
  have hwalk : checkMistakes ["a", "b", "c"] ["a", "c"] initState
      (getAlign ["a", "b", "c"] ["a", "c"]) =
      Except.ok (MistState.mk
        [PhoneticMistake.mk (some (Phoneme.mk 1 "b")) none CompareType.Deletion] 2 3 2) := by
    decide
  have hacc : calculateAccuracy 3 2 2 = Except.ok 50 := by
    rw [calculateAccuracy]
    norm_num
    rw [round2]
    norm_num
  rw [compare, htok, htok2, compareTokens]
  simp only [bind, Except.bind, hwalk]
  simp only [List.length_cons, List.length_nil]
  rw [hacc]
  rfl

/-- C6: whenever the evaluation returns a report, its accuracy lies in
`[0, 100]`: the match count is at most `len_ref`, the length-discrepancy
factor is at least 1, and two-decimal rounding preserves the bounds. -/
theorem c6_accuracy_in_range (reference actual : String) (fb : Feedback)
    (h : compare reference actual = Except.ok fb) :
    0 ≤ fb.accuracy ∧ fb.accuracy ≤ 100 := by
  by_cases href : tokenize reference = []
  · rw [compare, href, compareTokens_nil_ref] at h
    exact absurd h (fun hc => Except.noConfusion hc)
  · obtain ⟨st, he, hle, hok⟩ := compareTokens_ok (tokenize reference) (tokenize actual) href
    rw [compare, hok] at h
    have hfb := Except.ok.inj h
    subst hfb
    have hr := accuracy_expr_range (tokenize reference).length (tokenize actual).length
      st.matchCount (fun h0 => href (List.length_eq_zero.mp h0)) hle
    exact round2_bounds _ hr.1 hr.2

theorem c6_witness :
    0 ≤ (Feedback.mk 100 []).accuracy ∧ (Feedback.mk 100 []).accuracy ≤ 100 := by
  refine c6_accuracy_in_range "a" "a" (Feedback.mk 100 []) ?_
  have hwalk : checkMistakes ["a"] ["a"] initState (getAlign ["a"] ["a"]) =
      Except.ok (MistState.mk [] 1 1 1) := by decide
  rw [show compare "a" "a" = compareTokens ["a"] ["a"] from by rw [compare]; rfl]
  rw [compareTokens]
  simp only [bind, Except.bind, hwalk]
  simp only [List.length_cons, List.length_nil]
  rw [show calculateAccuracy 1 1 1 = Except.ok 100 from by
    rw [calculateAccuracy]
    norm_num
    rw [round2]
    norm_num]
  rfl

/-- C7: evaluation is deterministic — the report is a function of the two
input strings alone (the embedding is a pure function because the Python core
reads no state besides its arguments), so identical arguments give identical
reports, including mistake order and rounding. -/
theorem c7_deterministic (r1 a1 r2 a2 : String) (hr : r1 = r2) (ha : a1 = a2) :
    compare r1 a1 = compare r2 a2 := by
  rw [hr, ha]

theorem c7_witness : compare "a b" "a" = compare "a b" "a" :=
  c7_deterministic "a b" "a" "a b" "a" rfl rfl

/-- C8: the traceback terminates — `i + j` strictly decreases each iteration,
so the walk takes at most `N + M` steps (the emitted list is no longer than
`N + M`, and any fuel beyond `N + M` changes nothing) — and the mistake walk
is a total left fold over the operation sequence. -/
theorem c8_termination (ref act : List String) (extra : Nat) :
    (getAlign ref act).length ≤ ref.length + act.length ∧
    tracebackAux ref act (ref.length + act.length + extra) ref.length act.length =
      tracebackAux ref act (ref.length + act.length) ref.length act.length ∧
    checkMistakes ref act initState (getAlign ref act) =
      (getAlign ref act).foldlM (checkStep ref act) initState := by
  refine ⟨?_, ?_, rfl⟩
  · rw [getAlign, List.length_reverse]
    have hc := tracebackAux_counts ref act (ref.length + act.length) ref.length act.length
      (le_refl _)
    have hl := length_le_countP_add_countP
      (tracebackAux ref act (ref.length + act.length) ref.length act.length)
    omega
  · exact tracebackAux_fuel ref act (ref.length + act.length + extra)
      (ref.length + act.length) ref.length act.length (by omega) (le_refl _)

/-- C9: with a nonempty reference and an actual string that tokenizes to zero
tokens, `compare` returns accuracy `0` and exactly one `Deletion` mistake per
reference token, in reference order, each carrying the reference token at its
position and no actual token. -/
theorem c9_empty_actual (reference actual : String)
    (hact : tokenize actual = []) (href : tokenize reference ≠ []) :
    compare reference actual = Except.ok (Feedback.mk 0
      ((List.range (tokenize reference).length).map (fun t => PhoneticMistake.mk
        (some (Phoneme.mk t ((tokenize reference).getD t ""))) none
        CompareType.Deletion))) := by
  rw [compare, hact, compareTokens, getAlign_act_nil]
  have hw := checkMistakes_deletions (tokenize reference) []
    (tokenize reference).length 0 [] 0 0 (by omega)
  simp only [Nat.zero_add, List.nil_append] at hw
  rw [show initState = MistState.mk [] 0 0 0 from rfl, hw]
  simp only [bind, Except.bind]
  rw [show ([] : List String).length = 0 from rfl,
    calculateAccuracy_zero_matches (tokenize reference).length 0
      (fun h0 => href (List.length_eq_zero.mp h0))]
  rfl

theorem c9_witness :
    compare "a b" " " = Except.ok (Feedback.mk 0
      ((List.range (tokenize "a b").length).map (fun t => PhoneticMistake.mk
        (some (Phoneme.mk t ((tokenize "a b").getD t ""))) none
        CompareType.Deletion))) :=
  c9_empty_actual "a b" " " (by decide) (by decide)

/-- C10: during the mistake walk over the alignment of the evaluator's token
sequences, every read of `reference[ref_pos]` (operations other than
`Insertion`) and of `actual[act_pos]` (operations other than `Deletion`)
happens at an in-range index, so the walk never faults: it returns a final
state instead of an `IndexError`. -/
theorem c10_walk_in_bounds (ref act : List String) :
    walkSafe ref.length act.length 0 0 (getAlign ref act) ∧
    ∃ st, checkMistakes ref act initState (getAlign ref act) = Except.ok st := by
  refine ⟨getAlign_walkSafe ref act, ?_⟩
  obtain ⟨st, he, h1, h2, h3, h4⟩ :=
    checkMistakes_ok ref act (getAlign ref act) initState (getAlign_walkSafe ref act)
  exact ⟨st, he⟩

end AudioFeedback
